import Mathlib

/-!
Verification of the local retrieval-and-evidence-linking subsystem of the
chatbot-ponderada repository: the chunker, feature-hashing embedder, index
store, cosine-similarity retriever, evidence linker, resilient JSON extractor
and the batch fraud-check loops.

Python string primitives are modelled by structurally recursive functions on
`List Char` so that every definition is kernel-executable.  External
collaborators (the SHA-1 digest, the per-token hash, the LLM call, the policy
retriever oracle) are passed as explicit function parameters.
-/

namespace Compliance

/-! ### Python string primitives, modelled on `List Char` -/

/-- Whitespace recognised by Python `str.split()` / `str.strip()`
(restricted to the ASCII whitespace actually occurring in the data). -/
def isWs (c : Char) : Bool :=
  c = ' ' || c = '\t' || c = '\n' || c = '\r'

/-- Python `str.strip()`: drop leading and trailing whitespace. -/
def trimChars (cs : List Char) : List Char :=
  ((cs.dropWhile isWs).reverse.dropWhile isWs).reverse

/-- Accumulator loop for whitespace tokenization (`cur` holds the current
token reversed). -/
def tokAux : List Char → List Char → List (List Char)
  | [], cur => if cur = [] then [] else [cur.reverse]
  | c :: rest, cur =>
    if isWs c then
      (if cur = [] then tokAux rest [] else cur.reverse :: tokAux rest [])
    else tokAux rest (c :: cur)

/-- Python `str.split()` with no separator: split on whitespace runs,
dropping empty tokens. -/
def tokenize (cs : List Char) : List (List Char) := tokAux cs []

/-- Python `str.lower()` (ASCII). -/
def strLower (s : String) : String := String.mk (s.data.map Char.toLower)

/-- Python `split("\n\n")`: split on every occurrence of a double newline,
leftmost first. -/
def splitNN : List Char → List (List Char)
  | '\n' :: '\n' :: rest => [] :: splitNN rest
  | c :: rest =>
    match splitNN rest with
    | p :: ps => (c :: p) :: ps
    | [] => [[c]]
  | [] => [[]]

/-- Python `str.splitlines()`, modelled as splitting on `'\n'`. -/
def splitNL : List Char → List (List Char)
  | '\n' :: rest => [] :: splitNL rest
  | c :: rest =>
    match splitNL rest with
    | p :: ps => (c :: p) :: ps
    | [] => [[c]]
  | [] => [[]]

/-- Python `"\n".join(lines)`. -/
def joinLines : List (List Char) → List Char
  | [] => []
  | [l] => l
  | l :: ls => l ++ '\n' :: joinLines ls

/-- `sub` occurs as a contiguous substring of `hay` (Python's `in`). -/
def ContainsSub (hay sub : List Char) : Prop :=
  ∃ pre suf, hay = pre ++ sub ++ suf

/-- Executable substring search, modelling Python's `in` operator on
strings. -/
def hasSub : List Char → List Char → Bool
  | [], sub => sub.isEmpty
  | c :: rest, sub => sub.isPrefixOf (c :: rest) || hasSub rest sub

theorem isPrefixOf_eq_true_iff (sub hay : List Char) :
    sub.isPrefixOf hay = true ↔ ∃ t, hay = sub ++ t := by
  induction sub generalizing hay with
  | nil => simp [List.isPrefixOf]
  | cons a as ih =>
    cases hay with
    | nil => simp [List.isPrefixOf]
    | cons b bs =>
      simp only [List.isPrefixOf, Bool.and_eq_true, beq_iff_eq, ih,
        List.cons_append, List.cons.injEq]
      constructor
      · rintro ⟨rfl, t, rfl⟩; exact ⟨t, rfl, rfl⟩
      · rintro ⟨t, rfl, rfl⟩; exact ⟨rfl, t, rfl⟩

theorem hasSub_iff (hay sub : List Char) :
    hasSub hay sub = true ↔ ContainsSub hay sub := by
  induction hay with
  | nil =>
    simp only [hasSub, List.isEmpty_iff, ContainsSub]
    constructor
    · rintro rfl; exact ⟨[], [], rfl⟩
    · rintro ⟨pre, suf, h⟩
      have hl := congrArg List.length h
      simp only [List.length_nil, List.length_append] at hl
      exact List.eq_nil_of_length_eq_zero (by omega)
  | cons c rest ih =>
    simp only [hasSub, Bool.or_eq_true, isPrefixOf_eq_true_iff, ih, ContainsSub]
    constructor
    · rintro (⟨t, ht⟩ | ⟨pre, suf, rfl⟩)
      · exact ⟨[], t, by simpa using ht⟩
      · exact ⟨c :: pre, suf, rfl⟩
    · rintro ⟨pre, suf, h⟩
      cases pre with
      | nil => exact Or.inl ⟨suf, by simpa using h⟩
      | cons p ps =>
        simp only [List.cons_append, List.cons.injEq] at h
        exact Or.inr ⟨ps, suf, h.2⟩

/-! ### Embedder (`llm_client.embed_text`)

`embed_text` lower-cases and whitespace-tokenizes the text, and for every
token increments bucket `hash(token) % 256` of a 256-long vector of counts.
The cryptographic token hash (`int(hashlib.sha1(tok).hexdigest(), 16)`) is an
external primitive, passed as the parameter `h`. -/

/-- One loop iteration of `embed_text`: `vec[idx] += 1.0`. -/
def bump (v : List ℚ) (i : Nat) : List ℚ := v.set i (v.getD i 0 + 1)

/-- `llm_client.embed_text`, with the per-token hash `h` as a parameter. -/
def embedText (h : String → Nat) (text : String) : List ℚ :=
  (tokenize (strLower text).data).foldl
    (fun vec tok => bump vec (h (String.mk tok) % 256))
    (List.replicate 256 0)

theorem bump_length (v : List ℚ) (i : Nat) : (bump v i).length = v.length := by
  simp [bump]

theorem foldl_bump_length (h : String → Nat) (toks : List (List Char))
    (v : List ℚ) :
    (toks.foldl (fun vec tok => bump vec (h (String.mk tok) % 256)) v).length
      = v.length := by
  induction toks generalizing v with
  | nil => rfl
  | cons t ts ih => simp [List.foldl_cons, ih, bump_length]

/-! ### Chunker (`retriever_compliance._chunk_policy`)

The policy text is split into paragraphs on blank lines
(`text.split("\n\n")`, stripped, empties dropped) and the paragraphs are
greedily packed into chunks of at most `chunkSize` characters, separated by a
blank line.  The policy file content is passed as the parameter `text`. -/

/-- The paragraph list: `[p.strip() for p in text.split("\n\n") if p.strip()]`. -/
def parags (text : String) : List String :=
  ((splitNN text.data).map (fun p => String.mk (trimChars p))).filter
    (fun p => p ≠ "")

/-- The accumulation loop of `_chunk_policy`: `current` is the running
buffer, `chunks` the emitted chunks. -/
def chunkGo (chunkSize : Nat) : List String → String → List String → List String
  | [], current, chunks => if current = "" then chunks else chunks ++ [current]
  | p :: rest, current, chunks =>
    if current.length + p.length + 2 ≤ chunkSize then
      chunkGo chunkSize rest
        (if current = "" then p else current ++ "\n\n" ++ p) chunks
    else
      chunkGo chunkSize rest p
        (if current = "" then chunks else chunks ++ [current])

/-- A chunk as produced by `_chunk_policy`: `{"id": i, "text": c}`. -/
structure PChunk where
  id : Nat
  text : String
deriving DecidableEq

/-- `retriever_compliance._chunk_policy` (the policy text is a parameter;
the source calls it with `chunk_size = 1000`). -/
def chunkPolicy (text : String) (chunkSize : Nat) : List PChunk :=
  (chunkGo chunkSize (parags text) "" []).enum.map
    (fun p => { id := p.1, text := p.2 })

/-- Joining a group of paragraphs with the blank-line separator, as the
accumulation loop does. -/
def joinPars : List String → String
  | [] => ""
  | [p] => p
  | p :: ps => p ++ "\n\n" ++ joinPars ps

/-! ### Evidence linker (`fraud_detector_contextual.find_related_emails`)

The raw e-mail corpus is passed as the parameter `emailsRaw`. -/

/-- The fixed stop-word set of `find_related_emails`. -/
def stopWords : List String :=
  ["de", "do", "da", "para", "com", "despesa", "compra", "gasto"]

/-- Keyword extraction from the transaction description:
`description.lower().replace("-", " ").split()` filtered by
`len(w) > 3 and w not in stop_words` (empty description yields no
keywords, since `if description:` guards the extraction). -/
def descKeywords (description : String) : List String :=
  if description = "" then []
  else
    ((tokenize ((strLower description).data.map
        (fun c => if c = '-' then ' ' else c))).filter
      (fun w => 3 < w.length && !(stopWords.contains (String.mk w)))).map
      String.mk

/-- The spec's stated keyword rule, for comparison with the code: tokens
shorter than 5 characters are dropped. -/
def descKeywordsSpec (description : String) : List String :=
  if description = "" then []
  else
    ((tokenize ((strLower description).data.map
        (fun c => if c = '-' then ' ' else c))).filter
      (fun w => 4 < w.length && !(stopWords.contains (String.mk w)))).map
      String.mk

/-- The per-line match test of `find_related_emails`: employee-name tier,
then amount tier, then description-keyword tier (`elif` chain with an inner
`for`/`break` loop). -/
def lineMatches (nameLower amountStr : List Char) (kws : List String)
    (ln : List Char) : Bool :=
  let lnLower := ln.map Char.toLower
  if nameLower ≠ [] && hasSub lnLower nameLower then true
  else if amountStr ≠ [] && hasSub ln amountStr then true
  else kws.any (fun kw => hasSub lnLower kw.data)

/-- `fraud_detector_contextual.find_related_emails` (the e-mail corpus is a
parameter). -/
def findRelatedEmails (emailsRaw employeeName amount description : String) :
    String :=
  let lines := splitNL emailsRaw.data
  let nameLower := (strLower employeeName).data
  let amountStr := trimChars amount.data
  let kws := descKeywords description
  let found := lines.filter (lineMatches nameLower amountStr kws)
  let found := if 80 < found.length then found.take 80 else found
  String.mk (joinLines found)

/-! ### Index store (`retriever_compliance.build_index`)

The file system is modelled explicitly: `FS.policy` is the content of the
policy source file and `FS.index` the content of the persisted index file
(`none` when absent, `corrupt` when present but not valid JSON, `valid` when
it parses).  The SHA-1 digest (`llm_client.file_sha1`) is the external
parameter `sha`; `h` is the embedder's token hash.  The returned action list
records which side-effecting steps ran (re-chunking, re-embedding, rewriting
the index file); a raised exception is an `Except.error`. -/

/-- A chunk as persisted in `compliance_index.json`. -/
structure IndexChunk where
  id : Nat
  text : String
  embedding : List ℚ
deriving DecidableEq

/-- The decoded JSON content of the persisted index.  Absent `_meta` keys are
folded into the `Option` fields (`existing.get("_meta", {}).get("source_sha1")`
yields `None` whether `_meta` or the key is missing). -/
structure IndexData where
  sourceSha1 : Option String
  numChunks : Option Nat
  chunks : List IndexChunk
deriving DecidableEq

/-- The persisted index file: either valid JSON or corrupt raw text. -/
inductive StoredIndex where
  | corrupt (raw : String)
  | valid (data : IndexData)
deriving DecidableEq

/-- The file-system state seen by the index store. -/
structure FS where
  policy : String
  index : Option StoredIndex
deriving DecidableEq

/-- The side-effecting steps of a rebuild. -/
inductive Action where
  | chunked
  | embedded
  | wroteIndex
deriving DecidableEq

/-- Errors that `build_index` can raise past its boundary. -/
inductive BuildErr where
  | jsonDecodeError
deriving DecidableEq

/-- The index data written by a full rebuild: chunks with embeddings plus
`_meta = {source_sha1, num_chunks}`. -/
def rebuildData (sha : String → String) (h : String → Nat) (policy : String) :
    IndexData :=
  let chunks := (chunkPolicy policy 1000).map
    (fun c => { id := c.id, text := c.text, embedding := embedText h c.text })
  { sourceSha1 := some (sha policy), numChunks := some chunks.length,
    chunks := chunks }

/-- The rebuild path of `build_index`: chunk, embed every chunk, write the
index file. -/
def rebuildResult (sha : String → String) (h : String → Nat) (fs : FS) :
    FS × List Action :=
  ({ fs with index := some (.valid (rebuildData sha h fs.policy)) },
    [.chunked, .embedded, .wroteIndex])

/-- `retriever_compliance.build_index`.  With `force = False` and an existing
index file, the file is read with `json.loads` (raising on corrupt content —
there is no handler) and the stored fingerprint compared against the current
one; on a match the function returns with no further effect, otherwise it
rebuilds. -/
def buildIndex (sha : String → String) (h : String → Nat) (force : Bool)
    (fs : FS) : Except BuildErr (FS × List Action) :=
  match force, fs.index with
  | false, some (.corrupt _) => .error .jsonDecodeError
  | false, some (.valid d) =>
    if d.sourceSha1 = some (sha fs.policy) then .ok (fs, [])
    else .ok (rebuildResult sha h fs)
  | _, _ => .ok (rebuildResult sha h fs)

/-! ### Retriever (`retriever_compliance.retrieve_relevant`)

The loaded index (`_load_index`, embeddings converted to float arrays) is
passed as the list of chunks; float arithmetic is idealised over `ℝ`. -/

/-- A chunk of the loaded index, embeddings as real vectors
(`np.array(c["embedding"], dtype=float)`). -/
structure LoadedChunk where
  id : Nat
  text : String
  embedding : List ℝ

/-- `a @ b` for equal-length vectors. -/
def dotR (a b : List ℝ) : ℝ := (a.zipWith (· * ·) b).sum

/-- `np.linalg.norm`: the Euclidean magnitude. -/
noncomputable def normR (a : List ℝ) : ℝ := Real.sqrt (dotR a a)

/-- The `cos_sim` helper inside `retrieve_relevant`:
`a @ b / denom if denom != 0 else 0.0` with `denom = norm(a) * norm(b)`. -/
noncomputable def cosSim (a b : List ℝ) : ℝ :=
  let denom := normR a * normR b
  if denom ≠ 0 then dotR a b / denom else 0

/-- The query embedding `np.array(embed_text(query), dtype=float)`. -/
def qEmbed (h : String → Nat) (query : String) : List ℝ :=
  (embedText h query).map (fun x => (x : ℝ))

/-- The ordering used by `scored.sort(key=lambda x: x[0], reverse=True)`:
descending by score. -/
def scoredRel (a b : ℝ × LoadedChunk) : Prop := b.1 ≤ a.1

noncomputable instance : DecidableRel scoredRel :=
  fun a b => inferInstanceAs (Decidable (b.1 ≤ a.1))

instance : IsTotal (ℝ × LoadedChunk) scoredRel :=
  ⟨fun a b => le_total b.1 a.1⟩

instance : IsTrans (ℝ × LoadedChunk) scoredRel :=
  ⟨fun _ _ _ h1 h2 => le_trans h2 h1⟩

/-- `retriever_compliance.retrieve_relevant` over a loaded index.  Python's
`list.sort` is a stable sort; with `reverse=True` it orders by strictly
greater score and keeps the original order of equal-score entries, which is
exactly `List.insertionSort scoredRel`. -/
noncomputable def retrieveRelevantOn (h : String → Nat)
    (chunks : List LoadedChunk) (query : String) (k : Nat) :
    List LoadedChunk :=
  let qEmb := qEmbed h query
  let scored := chunks.map (fun c => (cosSim qEmb c.embedding, c))
  ((scored.insertionSort scoredRel).take k).map (fun p => p.2)

/-- The similarity score `retrieve_relevant` assigns to a chunk. -/
noncomputable def scoreOf (h : String → Nat) (query : String)
    (c : LoadedChunk) : ℝ :=
  cosSim (qEmbed h query) c.embedding

/-! ### Fraud detectors (batch loops and the contextual early return)

Transaction rows are string-to-string mappings (`csv.DictReader` rows); the
per-item analysis (`check_transaction_row`, resp. the downstream calls of
`check_transaction_with_context`) can raise, modelled by `Except`. -/

/-- A CSV row: association list of column name to value. -/
def Row : Type := List (String × String)

/-- Python `row.get(key, "")` (first binding wins, as in a dict built
left-to-right from distinct CSV headers). -/
def rowGet (row : Row) (key : String) : String :=
  match List.lookup key row with
  | some v => v
  | none => ""

/-- Python `a or b` on strings: `b` when `a` is empty (falsy), else `a`. -/
def pyOr (a b : String) : String := if a = "" then b else a

/-- `employee = row.get("funcionario", "") or row.get("employee", "")`. -/
def rowEmployee (row : Row) : String :=
  pyOr (rowGet row "funcionario") (rowGet row "employee")

/-- `amount = row.get("valor", "") or row.get("amount", "")`. -/
def rowAmount (row : Row) : String :=
  pyOr (rowGet row "valor") (rowGet row "amount")

/-- `description = row.get("descricao", "") or row.get("description", "")`. -/
def rowDescription (row : Row) : String :=
  pyOr (rowGet row "descricao") (rowGet row "description")

/-- Result record of `check_transaction_with_context`. -/
structure CtxResult where
  row : Row
  fraudSuspected : Bool
  justification : String
  emailEvidence : List String
  policyEvidence : List String

/-- The fields the code reads off the LLM's JSON reply, each `none` when the
key is absent (`result.get(..., default)`). -/
structure LlmOut where
  fraudSuspected : Option Bool
  justification : Option String
  emailEvidence : Option (List String)
  policyEvidence : Option (List String)

/-- External calls made while checking one transaction. -/
inductive ExtCall where
  | retrieveCall
  | llmCall
deriving DecidableEq

/-- `fraud_detector_contextual.check_transaction_with_context`.  The e-mail
corpus, the policy retriever and the LLM are parameters; the returned list
records which external calls were made.  The retriever query string follows
the source exactly; the prompt handed to the LLM oracle abridges the
f-string boilerplate to the two context payloads (policy excerpts and
e-mail lines), which no claim depends on. -/
def checkTransactionWithContext (emailsRaw : String)
    (retrieve : String → Nat → List LoadedChunk) (llm : String → LlmOut)
    (row : Row) : CtxResult × List ExtCall :=
  let employee := rowEmployee row
  let amount := rowAmount row
  let description := rowDescription row
  let emailsContext := findRelatedEmails emailsRaw employee amount description
  if trimChars emailsContext.data = [] then
    ({ row := row, fraudSuspected := false,
       justification :=
         "Nenhum e-mail relacionado foi encontrado para esta transação.",
       emailEvidence := [], policyEvidence := [] }, [])
  else
    let policyDocs :=
      retrieve (rowGet row "descricao" ++ " " ++ rowGet row "categoria"
        ++ " " ++ amount) 2
    let result := llm (String.intercalate "\n\n---\n\n"
      (policyDocs.map (fun d => d.text)) ++ emailsContext)
    ({ row := row,
       fraudSuspected := result.fraudSuspected.getD false,
       justification := result.justification.getD "",
       emailEvidence := result.emailEvidence.getD [],
       policyEvidence := result.policyEvidence.getD [] },
      [.retrieveCall, .llmCall])

/-- The `for`/`try`/`except`/`continue` loop shared by both batch checks:
a per-item failure is swallowed and the loop continues. -/
def fraudLoop {R : Type} (check : Row → Except String R) : List Row → List R
  | [] => []
  | r :: rest =>
    match check r with
    | .ok v => v :: fraudLoop check rest
    | .error _ => fraudLoop check rest

/-- `max_rows`-limiting (`rows = rows[:max_rows]` when given). -/
def applyMaxRows (maxRows : Option Nat) (rows : List Row) : List Row :=
  match maxRows with
  | some m => rows.take m
  | none => rows

/-- `fraud_detector_simple.run_simple_fraud_check`: the transaction rows and
the per-row analysis (`check_transaction_row`, which can raise) are
parameters. -/
def runSimpleFraudCheck {R : Type} (check : Row → Except String R)
    (maxRows : Option Nat) (rows : List Row) : List R :=
  fraudLoop check (applyMaxRows maxRows rows)

/-- `fraud_detector_contextual.run_contextual_fraud_check`: same loop shape
around `check_transaction_with_context`. -/
def runContextualFraudCheck {R : Type} (check : Row → Except String R)
    (maxRows : Option Nat) (rows : List Row) : List R :=
  fraudLoop check (applyMaxRows maxRows rows)

/-! ### Resilient extractor (`llm_client.clean_json`)

`json.loads` is modelled by a small recursive-descent parser `jsonLoads`
covering the JSON forms the code exchanges with the model (objects, arrays,
strings with the common escapes, integers, booleans, null); like
`json.loads`, it fails unless the whole input (modulo surrounding
whitespace) is one value. -/

/-- JSON values. -/
inductive JVal where
  | jnull
  | jbool (b : Bool)
  | jnum (n : Int)
  | jstr (s : String)
  | jarr (elems : List JVal)
  | jobj (fields : List (String × JVal))
deriving BEq

/-- Skip JSON whitespace. -/
def skipWs : List Char → List Char
  | c :: rest =>
    if c = ' ' || c = '\t' || c = '\n' || c = '\r' then skipWs rest
    else c :: rest
  | [] => []

/-- The common JSON escapes, as a code-to-character table. -/
def escTable : List (Char × Char) :=
  [('"', '"'), ('\\', '\\'), ('/', '/'), ('n', '\n'), ('t', '\t'), ('r', '\r')]

/-- Decode one escape code. -/
def escChar (c : Char) : Option Char := List.lookup c escTable

/-- Parse a JSON string body after the opening quote, returning the decoded
characters and the remainder after the closing quote. -/
def parseStringBody : List Char → Option (List Char × List Char)
  | [] => none
  | '"' :: rest => some ([], rest)
  | '\\' :: c :: rest => do
    let e ← escChar c
    let (s, r) ← parseStringBody rest
    some (e :: s, r)
  | c :: rest => do
    let (s, r) ← parseStringBody rest
    some (c :: s, r)

/-- Consume a run of digits, extending the accumulator `acc`. -/
def digitsAux : List Char → Nat → Nat × List Char
  | c :: rest, acc =>
    if c.isDigit then digitsAux rest (acc * 10 + (c.toNat - 48))
    else (acc, c :: rest)
  | [], acc => (acc, [])

mutual

/-- Parse one JSON value (fuel-indexed). -/
def parseVal : Nat → List Char → Option (JVal × List Char)
  | 0, _ => none
  | Nat.succ fuel, cs =>
    match skipWs cs with
    | '{' :: rest =>
      (match skipWs rest with
       | '}' :: rest2 => some (.jobj [], rest2)
       | cs2 => (parseMembers fuel cs2).map (fun p => (.jobj p.1, p.2)))
    | '[' :: rest =>
      (match skipWs rest with
       | ']' :: rest2 => some (.jarr [], rest2)
       | cs2 => (parseElems fuel cs2).map (fun p => (.jarr p.1, p.2)))
    | '"' :: rest =>
      (parseStringBody rest).map (fun p => (.jstr (String.mk p.1), p.2))
    | 't' :: 'r' :: 'u' :: 'e' :: rest => some (.jbool true, rest)
    | 'f' :: 'a' :: 'l' :: 's' :: 'e' :: rest => some (.jbool false, rest)
    | 'n' :: 'u' :: 'l' :: 'l' :: rest => some (.jnull, rest)
    | '-' :: c :: rest =>
      if c.isDigit then
        let p := digitsAux rest (c.toNat - 48)
        some (.jnum (-(p.1 : Int)), p.2)
      else none
    | c :: rest =>
      if c.isDigit then
        let p := digitsAux rest (c.toNat - 48)
        some (.jnum (p.1 : Int), p.2)
      else none
    | [] => none

/-- Parse the members of a non-empty JSON object, up to and including the
closing brace. -/
def parseMembers : Nat → List Char → Option (List (String × JVal) × List Char)
  | 0, _ => none
  | Nat.succ fuel, cs =>
    match skipWs cs with
    | '"' :: rest => do
      let (key, r1) ← parseStringBody rest
      match skipWs r1 with
      | ':' :: r2 => do
        let (v, r3) ← parseVal fuel r2
        match skipWs r3 with
        | ',' :: r4 => do
          let (fs, r5) ← parseMembers fuel r4
          some ((String.mk key, v) :: fs, r5)
        | '}' :: r4 => some ([(String.mk key, v)], r4)
        | _ => none
      | _ => none
    | _ => none

/-- Parse the elements of a non-empty JSON array, up to and including the
closing bracket. -/
def parseElems : Nat → List Char → Option (List JVal × List Char)
  | 0, _ => none
  | Nat.succ fuel, cs => do
    let (v, r1) ← parseVal fuel cs
    match skipWs r1 with
    | ',' :: r2 => do
      let (xs, r3) ← parseElems fuel r2
      some (v :: xs, r3)
    | ']' :: r2 => some ([v], r2)
    | _ => none

end

/-- The model of `json.loads`: parse one value and require the rest of the
input to be whitespace. -/
def jsonLoads (s : String) : Option JVal :=
  match parseVal (2 * s.length + 2) s.data with
  | some (v, rest) => if skipWs rest = [] then some v else none
  | none => none

/-- The `txt.find("{")` step: index of the first opening brace. -/
def firstBraceIdx : List Char → Nat → Option Nat
  | [], _ => none
  | c :: rest, i => if c = '{' then some i else firstBraceIdx rest (i + 1)

/-- The brace-depth scan of `clean_json`: starting from absolute index `i`
with running depth `depth`, return the absolute index of the `'}'` at which
the depth returns to 0. -/
def findEnd : List Char → Int → Nat → Option Nat
  | [], _, _ => none
  | c :: rest, depth, i =>
    if c = '{' then findEnd rest (depth + 1) (i + 1)
    else if c = '}' then
      if depth - 1 = 0 then some i else findEnd rest (depth - 1) (i + 1)
    else findEnd rest depth (i + 1)

/-- The failure conditions of `clean_json` (each a `ValueError` in the
source). -/
inductive JsonErr where
  | noBrace
  | unbalanced
  | sliceFail
deriving DecidableEq

/-- `llm_client.clean_json`: direct parse of the stripped input, else
balanced-brace extraction of the first top-level object and a parse of that
slice. -/
def cleanJson (txt : String) : Except JsonErr JVal :=
  let t := trimChars txt.data
  match jsonLoads (String.mk t) with
  | some v => .ok v
  | none =>
    match firstBraceIdx t 0 with
    | none => .error .noBrace
    | some start =>
      match findEnd (t.drop start) 0 start with
      | none => .error .unbalanced
      | some e =>
        let candidate := String.mk ((t.drop start).take (e + 1 - start))
        match jsonLoads candidate with
        | some v => .ok v
        | none => .error .sliceFail

/-- The running depth of the claim's description: `+1` per `'{'`, `-1` per
`'}'`. -/
def braceBal (cs : List Char) : Int :=
  (cs.count '{' : Int) - (cs.count '}' : Int)

/-- `n` is the position (relative to the scan start) at which the depth
counter first returns to 0: the character there is `'}'`, the depth over the
prefix through it is 0, and no earlier `'}'` brings the depth to 0. -/
def IsScanEnd (cs : List Char) (n : Nat) : Prop :=
  n < cs.length ∧ cs.getD n ' ' = '}' ∧ braceBal (cs.take (n + 1)) = 0 ∧
    ∀ m < n, ¬(cs.getD m ' ' = '}' ∧ braceBal (cs.take (m + 1)) = 0)

/-- `s` is the index of the first `'{'` of `cs`. -/
def IsFirstBrace (cs : List Char) (s : Nat) : Prop :=
  s < cs.length ∧ cs.getD s ' ' = '{' ∧ ∀ j < s, cs.getD j ' ' ≠ '{'

/-! ### Helper lemmas -/

theorem fraudLoop_eq_filterMap {R : Type} (check : Row → Except String R)
    (rows : List Row) :
    fraudLoop check rows = rows.filterMap (fun r => (check r).toOption) := by
  induction rows with
  | nil => rfl
  | cons r rest ih =>
    simp only [fraudLoop, List.filterMap_cons]
    cases hcr : check r <;> simp [ih, Except.toOption]

theorem filterMap_toOption_length {R : Type} (check : Row → Except String R)
    (rows : List Row) (hok : ∀ r ∈ rows, ∃ v, check r = .ok v) :
    (rows.filterMap (fun r => (check r).toOption)).length = rows.length := by
  induction rows with
  | nil => rfl
  | cons r rest ih =>
    obtain ⟨v, hv⟩ := hok r (List.mem_cons_self r rest)
    have hsome : (check r).toOption = some v := by rw [hv]; rfl
    simp only [List.filterMap_cons, hsome, List.length_cons]
    rw [ih (fun r hr => hok r (List.mem_cons_of_mem _ hr))]

/-! ### Claim theorems -/

/-- C8: `embed_text` is deterministic (identical input yields an identical
vector), always returns a vector of length exactly 256, and maps the empty
string (no tokens) to the all-zero vector. -/
theorem embed_text_spec (h : String → Nat) :
    (∀ t₁ t₂ : String, t₁ = t₂ → embedText h t₁ = embedText h t₂) ∧
    (∀ text : String, (embedText h text).length = 256) ∧
    embedText h "" = List.replicate 256 0 := by
  refine ⟨fun t₁ t₂ ht => by rw [ht], fun text => ?_, rfl⟩
  show ((tokenize (strLower text).data).foldl
      (fun vec tok => bump vec (h (String.mk tok) % 256))
      (List.replicate 256 0)).length = 256
  rw [foldl_bump_length, List.length_replicate]

theorem embed_text_spec_witness :
    embedText (fun _ => 0) "abc" = embedText (fun _ => 0) "abc" ∧
    (embedText (fun _ => 0) "abc").length = 256 :=
  ⟨(embed_text_spec (fun _ => 0)).1 "abc" "abc" rfl,
   (embed_text_spec (fun _ => 0)).2.1 "abc"⟩

/-- C9: the similarity used by `retrieve_relevant` equals the cosine (dot
product over the product of the magnitudes) whenever both magnitudes are
non-zero, and equals 0 when either magnitude is zero — so the division is
guarded and never performed with a zero denominator. -/
theorem cos_sim_spec (a b : List ℝ) :
    (normR a ≠ 0 → normR b ≠ 0 →
      cosSim a b = dotR a b / (normR a * normR b)) ∧
    ((normR a = 0 ∨ normR b = 0) → cosSim a b = 0) := by
  constructor
  · intro ha hb
    have hd : normR a * normR b ≠ 0 := mul_ne_zero ha hb
    simp only [cosSim, if_pos hd]
  · intro hab
    have hd : normR a * normR b = 0 := by
      rcases hab with h | h <;> simp [h]
    simp [cosSim, hd]

theorem cos_sim_spec_witness :
    normR [(1 : ℝ)] ≠ 0 ∧
    cosSim [(1 : ℝ)] [(1 : ℝ)]
      = dotR [(1 : ℝ)] [(1 : ℝ)] / (normR [(1 : ℝ)] * normR [(1 : ℝ)]) := by
  have h1 : normR [(1 : ℝ)] ≠ 0 := by
    norm_num [normR, dotR]
  exact ⟨h1, (cos_sim_spec [(1 : ℝ)] [(1 : ℝ)]).1 h1 h1⟩

/-- C5: in both batch fraud checks, when exactly one row's processing
raises, that row is skipped at the item boundary and the batch returns the
successfully processed results of the other rows in original order (its
length is N − 1); the loop itself is total, so nothing propagates past the
batch call. -/
theorem batch_isolation {R S : Type} (check : Row → Except String R)
    (checkC : Row → Except String S) (pre post : List Row) (bad : Row)
    (e eC : String) (hbad : check bad = .error e)
    (hbadC : checkC bad = .error eC)
    (hok : ∀ r ∈ pre ++ post, ∃ v, check r = .ok v)
    (hokC : ∀ r ∈ pre ++ post, ∃ v, checkC r = .ok v) :
    (runSimpleFraudCheck check none (pre ++ bad :: post)
        = (pre ++ post).filterMap (fun r => (check r).toOption) ∧
      (runSimpleFraudCheck check none (pre ++ bad :: post)).length
        = (pre ++ bad :: post).length - 1) ∧
    (runContextualFraudCheck checkC none (pre ++ bad :: post)
        = (pre ++ post).filterMap (fun r => (checkC r).toOption) ∧
      (runContextualFraudCheck checkC none (pre ++ bad :: post)).length
        = (pre ++ bad :: post).length - 1) := by
  have key : ∀ {T : Type} (ck : Row → Except String T) (er : String),
      ck bad = .error er → (∀ r ∈ pre ++ post, ∃ v, ck r = .ok v) →
      fraudLoop ck (pre ++ bad :: post)
          = (pre ++ post).filterMap (fun r => (ck r).toOption) ∧
        (fraudLoop ck (pre ++ bad :: post)).length
          = (pre ++ bad :: post).length - 1 := by
    intro T ck er hb ho
    have heq : fraudLoop ck (pre ++ bad :: post)
        = (pre ++ post).filterMap (fun r => (ck r).toOption) := by
      rw [fraudLoop_eq_filterMap]
      simp [List.filterMap_append, List.filterMap_cons, hb, Except.toOption]
    refine ⟨heq, ?_⟩
    rw [heq, filterMap_toOption_length ck (pre ++ post) ho]
    simp only [List.length_append, List.length_cons]
    omega
  exact ⟨key check e hbad hok, key checkC eC hbadC hokC⟩

theorem batch_isolation_witness :
    runSimpleFraudCheck
        (fun r => if r.length = 0 then .error "boom" else .ok r.length) none
        ([[("a", "1")]] ++ [] :: [[("b", "2")]])
      = ([[("a", "1")], [("b", "2")]] : List Row).filterMap
          (fun r => ((if r.length = 0 then (.error "boom" : Except String Nat)
            else .ok r.length)).toOption) ∧
    (runSimpleFraudCheck
        (fun r => if r.length = 0 then .error "boom" else .ok r.length) none
        ([[("a", "1")]] ++ [] :: [[("b", "2")]])).length
      = ([[("a", "1")]] ++ [] :: [[("b", "2")]] : List Row).length - 1 :=
  (batch_isolation
    (fun r => if r.length = 0 then (.error "boom" : Except String Nat)
      else .ok r.length)
    (fun r => if r.length = 0 then (.error "boom" : Except String Nat)
      else .ok r.length)
    [[("a", "1")]] [[("b", "2")]] [] "boom" "boom" rfl rfl
    (by
      intro r hr
      simp only [List.cons_append, List.nil_append, List.mem_cons,
        List.not_mem_nil, or_false] at hr
      rcases hr with rfl | rfl <;> exact ⟨1, rfl⟩)
    (by
      intro r hr
      simp only [List.cons_append, List.nil_append, List.mem_cons,
        List.not_mem_nil, or_false] at hr
      rcases hr with rfl | rfl <;> exact ⟨1, rfl⟩)).1

/-- A concrete file-system state whose persisted index file exists but is
not valid JSON. -/
def fsCorrupt : FS := { policy := "", index := some (.corrupt "not json") }

/-- C2 counterexample: with a persisted index that is not valid JSON and
`force = False`, `build_index` raises the JSON decode error past its
boundary instead of rebuilding — the claimed cache-miss behaviour does not
hold. -/
theorem build_index_corrupt_counterexample :
    buildIndex (fun s => s) (fun _ => 0) false fsCorrupt
      = .error .jsonDecodeError ∧
    (buildIndex (fun s => s) (fun _ => 0) false fsCorrupt).isOk = false := by
  exact ⟨rfl, rfl⟩

/-- C2 amended: if the persisted index file exists but is corrupt (not valid
JSON), `build_index` with `force = False` raises the JSON parse error past
its boundary (it does not treat the corrupt file as a cache miss); only
`force = True` bypasses the read and rebuilds. -/
theorem build_index_corrupt_raises (sha : String → String) (h : String → Nat)
    (fs : FS) (raw : String) (hc : fs.index = some (.corrupt raw)) :
    buildIndex sha h false fs = .error .jsonDecodeError ∧
    buildIndex sha h true fs = .ok (rebuildResult sha h fs) := by
  constructor
  · simp [buildIndex, hc]
  · simp [buildIndex]

theorem build_index_corrupt_raises_witness :
    buildIndex (fun _ => "S") (fun _ => 1)
        false { policy := "p", index := some (.corrupt "x") }
      = .error .jsonDecodeError :=
  (build_index_corrupt_raises (fun _ => "S") (fun _ => 1)
    { policy := "p", index := some (.corrupt "x") } "x" rfl).1

/-- C7: when the persisted index is valid and its stored fingerprint equals
the digest of the current source, `build_index` with `force = False` returns
with no re-chunking, re-embedding or index write and leaves the file system
unchanged; on a fingerprint mismatch it performs a full rebuild and persists
the new fingerprint and chunk count. -/
theorem build_index_cache_spec (sha : String → String) (h : String → Nat)
    (fs : FS) (d : IndexData) (hv : fs.index = some (.valid d)) :
    (d.sourceSha1 = some (sha fs.policy) →
      buildIndex sha h false fs = .ok (fs, [])) ∧
    (d.sourceSha1 ≠ some (sha fs.policy) →
      buildIndex sha h false fs
          = .ok ({ fs with
                index := some (.valid (rebuildData sha h fs.policy)) },
              [.chunked, .embedded, .wroteIndex]) ∧
        (rebuildData sha h fs.policy).sourceSha1 = some (sha fs.policy) ∧
        (rebuildData sha h fs.policy).numChunks
          = some ((chunkPolicy fs.policy 1000).length)) := by
  constructor
  · intro hsha
    simp [buildIndex, hv, hsha]
  · intro hsha
    refine ⟨by simp [buildIndex, hv, hsha, rebuildResult], rfl, ?_⟩
    simp [rebuildData]

theorem build_index_cache_spec_witness :
    buildIndex (fun _ => "S") (fun _ => 0) false
        { policy := "",
          index := some (.valid
            { sourceSha1 := some "S", numChunks := some 0, chunks := [] }) }
      = .ok ({ policy := "",
               index := some (.valid
                 { sourceSha1 := some "S", numChunks := some 0,
                   chunks := [] }) },
          []) :=
  (build_index_cache_spec (fun _ => "S") (fun _ => 0)
    { policy := "",
      index := some (.valid
        { sourceSha1 := some "S", numChunks := some 0, chunks := [] }) }
    { sourceSha1 := some "S", numChunks := some 0, chunks := [] } rfl).1 rfl

/-- C10: when `find_related_emails` yields an empty or whitespace-only
string for a row, `check_transaction_with_context` returns the fixed
not-suspected record carrying the original row and empty evidence lists, and
makes no retriever or LLM call (the result does not depend on either
oracle). -/
theorem check_transaction_no_emails (emailsRaw : String)
    (retrieve : String → Nat → List LoadedChunk) (llm : String → LlmOut)
    (row : Row)
    (hempty : trimChars (findRelatedEmails emailsRaw (rowEmployee row)
        (rowAmount row) (rowDescription row)).data = []) :
    checkTransactionWithContext emailsRaw retrieve llm row
      = ({ row := row, fraudSuspected := false,
           justification :=
             "Nenhum e-mail relacionado foi encontrado para esta transação.",
           emailEvidence := [], policyEvidence := [] }, []) := by
  simp [checkTransactionWithContext, hempty]

theorem check_transaction_no_emails_witness :
    checkTransactionWithContext "" (fun _ _ => []) (fun _ =>
        { fraudSuspected := none, justification := none,
          emailEvidence := none, policyEvidence := none }) ([] : Row)
      = ({ row := ([] : Row), fraudSuspected := false,
           justification :=
             "Nenhum e-mail relacionado foi encontrado para esta transação.",
           emailEvidence := [], policyEvidence := [] }, []) :=
  check_transaction_no_emails "" (fun _ _ => []) (fun _ =>
      { fraudSuspected := none, justification := none,
        emailEvidence := none, policyEvidence := none }) ([] : Row)
    (by decide)

/-- C1 counterexample: the code keeps the 4-character description token
"copo" as a keyword (`len(w) > 3`), while the claim's rule (drop tokens
shorter than 5 characters) would discard it. -/
theorem desc_keywords_counterexample :
    descKeywords "copo" = ["copo"] ∧ descKeywordsSpec "copo" = [] ∧
    "copo".length < 5 := by decide

/-- C1 amended: description keywords are obtained by lower-casing the
description, replacing hyphens with spaces, tokenizing on whitespace, and
dropping every token shorter than 4 characters (not 5) or belonging to the
fixed stop-word set; a corpus line not matched by the name or amount tiers
matches the keyword tier if and only if it contains at least one surviving
keyword. -/
theorem desc_keywords_spec (description w : String)
    (nameLower amountStr : List Char) (kws : List String) (ln : List Char) :
    (w ∈ descKeywords description ↔
      w.data ∈ tokenize ((strLower description).data.map
          (fun c => if c = '-' then ' ' else c)) ∧
        4 ≤ w.length ∧ w ∉ stopWords) ∧
    (¬(nameLower ≠ [] ∧ ContainsSub (ln.map Char.toLower) nameLower) →
      ¬(amountStr ≠ [] ∧ ContainsSub ln amountStr) →
      (lineMatches nameLower amountStr kws ln = true ↔
        ∃ kw ∈ kws, ContainsSub (ln.map Char.toLower) kw.data)) := by
  constructor
  · by_cases hd : description = ""
    · subst hd
      simp [descKeywords, strLower, tokenize, tokAux]
    · rw [descKeywords, if_neg hd]
      simp only [List.mem_map, List.mem_filter, Bool.and_eq_true,
        decide_eq_true_eq, Bool.not_eq_true']
      constructor
      · rintro ⟨x, ⟨hx, hlen, hstop⟩, rfl⟩
        refine ⟨hx, ?_, by simpa using hstop⟩
        have hxe : (String.mk x).length = x.length := rfl
        omega
      · rintro ⟨hx, hlen, hstop⟩
        refine ⟨w.data, ⟨hx, ?_, by simpa using hstop⟩, rfl⟩
        have hxe : w.length = w.data.length := rfl
        omega
  · intro hn ha
    simp only [lineMatches]
    have h1 : ¬((decide (nameLower ≠ []) &&
        hasSub (ln.map Char.toLower) nameLower) = true) := by
      simp only [Bool.and_eq_true, decide_eq_true_eq]
      exact fun h => hn ⟨h.1, (hasSub_iff _ _).mp h.2⟩
    have h2 : ¬((decide (amountStr ≠ []) && hasSub ln amountStr) = true) := by
      simp only [Bool.and_eq_true, decide_eq_true_eq]
      exact fun h => ha ⟨h.1, (hasSub_iff _ _).mp h.2⟩
    rw [if_neg h1, if_neg h2, List.any_eq_true]
    constructor
    · rintro ⟨kw, hkw, hsub⟩
      exact ⟨kw, hkw, (hasSub_iff _ _).mp hsub⟩
    · rintro ⟨kw, hkw, hsub⟩
      exact ⟨kw, hkw, (hasSub_iff _ _).mpr hsub⟩

theorem desc_keywords_spec_witness :
    lineMatches [] [] ["vinho"] ['v', 'i', 'n', 'h', 'o'] = true ↔
      ∃ kw ∈ ["vinho"],
        ContainsSub (['v', 'i', 'n', 'h', 'o'].map Char.toLower) kw.data :=
  (desc_keywords_spec "" "" [] [] ["vinho"] ['v', 'i', 'n', 'h', 'o']).2
    (by simp) (by simp)

theorem str_len_zero_iff (s : String) : s.length = 0 ↔ s = "" := by
  cases s with
  | mk data =>
    cases data with
    | nil => exact ⟨fun _ => rfl, fun _ => rfl⟩
    | cons c cs =>
      constructor
      · intro h
        have hc : (String.mk (c :: cs)).length = cs.length + 1 := by
          show (c :: cs).length = cs.length + 1
          simp
        omega
      · intro h
        have hd : c :: cs = ([] : List Char) := congrArg String.data h
        exact absurd hd (List.cons_ne_nil c cs)

theorem joinPars_ne_empty (g : List String) (hg : g ≠ [])
    (hne : ∀ p ∈ g, p ≠ "") : joinPars g ≠ "" := by
  match g with
  | [p] => exact hne p (List.mem_singleton_self p)
  | p :: q :: rest =>
    have hp : p ≠ "" := hne p (List.mem_cons_self _ _)
    have hp0 : p.length ≠ 0 := fun h0 => hp ((str_len_zero_iff p).mp h0)
    intro hcontra
    have hlen := congrArg String.length hcontra
    have hunf : joinPars (p :: q :: rest) = p ++ "\n\n" ++ joinPars (q :: rest) :=
      rfl
    rw [hunf, String.length_append, String.length_append] at hlen
    have h2 : ("\n\n" : String).length = 2 := rfl
    have h0 : ("" : String).length = 0 := rfl
    omega

theorem joinPars_snoc (g : List String) (p : String) (hg : g ≠ []) :
    joinPars (g ++ [p]) = joinPars g ++ "\n\n" ++ p := by
  induction g with
  | nil => exact absurd rfl hg
  | cons q g ih =>
    cases g with
    | nil => rfl
    | cons r rest =>
      have ihr := ih (by simp)
      simp only [List.cons_append] at ihr ⊢
      show q ++ "\n\n" ++ joinPars (r :: (rest ++ [p]))
          = (q ++ "\n\n" ++ joinPars (r :: rest)) ++ "\n\n" ++ p
      rw [ihr]
      simp [String.append_assoc]

theorem chunkGo_nil (size : Nat) (current : String) (chunks : List String) :
    chunkGo size [] current chunks
      = if current = "" then chunks else chunks ++ [current] := rfl

theorem chunkGo_cons (size : Nat) (p : String) (rest : List String)
    (current : String) (chunks : List String) :
    chunkGo size (p :: rest) current chunks
      = if current.length + p.length + 2 ≤ size then
          chunkGo size rest
            (if current = "" then p else current ++ "\n\n" ++ p) chunks
        else
          chunkGo size rest p
            (if current = "" then chunks else chunks ++ [current]) := rfl

theorem chunkGo_spec (size : Nat) (ps : List String) :
    ∀ (g : List String) (chunks : List String),
      (∀ p ∈ g, p ≠ "") → (∀ p ∈ ps, p ≠ "") →
      (∀ p ∈ g, size < p.length + 2 → g = [p]) →
      ∃ partss : List (List String),
        chunkGo size ps (joinPars g) chunks
            = chunks ++ partss.map joinPars ∧
        partss.join = g ++ ps ∧ (∀ part ∈ partss, part ≠ []) ∧
        (∀ part ∈ partss, ∀ p ∈ part, size < p.length + 2 → part = [p]) := by
  induction ps with
  | nil =>
    intro g chunks hgne _ hover
    by_cases hg : g = []
    · subst hg
      refine ⟨[], ?_, rfl, by simp, by simp⟩
      rw [chunkGo_nil, if_pos (show joinPars [] = "" from rfl)]
      simp
    · refine ⟨[g], ?_, by simp, by simpa using hg, by simpa using hover⟩
      rw [chunkGo_nil, if_neg (joinPars_ne_empty g hg hgne)]
      simp
  | cons p rest ih =>
    intro g chunks hgne hpsne hover
    have hpne : p ≠ "" := hpsne p (List.mem_cons_self _ _)
    have hrestne : ∀ q ∈ rest, q ≠ "" :=
      fun q hq => hpsne q (List.mem_cons_of_mem _ hq)
    by_cases hle : (joinPars g).length + p.length + 2 ≤ size
    · by_cases hg : g = []
      · subst hg
        obtain ⟨partss, h1, h2, h3, h4⟩ := ih [p] chunks
          (by simpa using hpne) hrestne (by simp)
        refine ⟨partss, ?_, by simpa using h2, h3, h4⟩
        rw [chunkGo_cons, if_pos hle,
          if_pos (show joinPars [] = "" from rfl)]
        exact h1
      · have hcur : joinPars g ≠ "" := joinPars_ne_empty g hg hgne
        obtain ⟨partss, h1, h2, h3, h4⟩ := ih (g ++ [p]) chunks
          (by
            intro q hq
            rcases List.mem_append.mp hq with hq | hq
            · exact hgne q hq
            · simpa using (List.mem_singleton.mp hq) ▸ hpne)
          hrestne
          (by
            intro q hq hbig
            rcases List.mem_append.mp hq with hq | hq
            · have hgq := hover q hq hbig
              rw [hgq] at hle
              have hjq : (joinPars [q]).length = q.length := rfl
              omega
            · have hqp := List.mem_singleton.mp hq
              subst hqp
              omega)
        refine ⟨partss, ?_, by simpa using h2, h3, h4⟩
        rw [chunkGo_cons, if_pos hle, if_neg hcur, ← joinPars_snoc g p hg]
        exact h1
    · by_cases hg : g = []
      · subst hg
        obtain ⟨partss, h1, h2, h3, h4⟩ := ih [p] chunks
          (by simpa using hpne) hrestne (by simp)
        refine ⟨partss, ?_, by simpa using h2, h3, h4⟩
        rw [chunkGo_cons, if_neg hle,
          if_pos (show joinPars [] = "" from rfl)]
        exact h1
      · have hcur : joinPars g ≠ "" := joinPars_ne_empty g hg hgne
        obtain ⟨partss, h1, h2, h3, h4⟩ := ih [p] (chunks ++ [joinPars g])
          (by simpa using hpne) hrestne (by simp)
        refine ⟨g :: partss, ?_, ?_, ?_, ?_⟩
        · rw [chunkGo_cons, if_neg hle, if_neg hcur]
          have h1e : chunkGo size rest p (chunks ++ [joinPars g])
              = chunks ++ [joinPars g] ++ partss.map joinPars := h1
          rw [h1e, List.map_cons, List.append_assoc, List.singleton_append]
        · simp [h2]
        · intro part hpart
          rcases List.mem_cons.mp hpart with rfl | hpart
          · exact hg
          · exact h3 part hpart
        · intro part hpart q hq hbig
          rcases List.mem_cons.mp hpart with rfl | hpart
          · exact hover q hq hbig
          · exact h4 part hpart q hq hbig

/-- C6: concatenating the Chunker's chunk texts (undoing the inserted
blank-line separators) reproduces exactly the non-empty stripped paragraphs
of the document in original order; no paragraph is split across chunk
boundaries; a paragraph longer than `max_chars` is emitted whole as its own
chunk; and chunk ids are the dense 0-based output positions. -/
theorem chunker_spec (text : String) (chunkSize : Nat) :
    ∃ partss : List (List String),
      (chunkPolicy text chunkSize).map (fun c => c.text)
          = partss.map joinPars ∧
      partss.join = parags text ∧
      (∀ part ∈ partss, part ≠ []) ∧
      (∀ part ∈ partss, ∀ p ∈ part, chunkSize < p.length → part = [p]) ∧
      (chunkPolicy text chunkSize).map (fun c => c.id)
          = List.range (chunkPolicy text chunkSize).length := by
  have hne : ∀ p ∈ parags text, p ≠ "" := by
    intro p hp
    have := (List.mem_filter.mp hp).2
    simpa using this
  obtain ⟨partss, h1, h2, h3, h4⟩ := chunkGo_spec chunkSize (parags text)
    [] [] (by simp) hne (by simp)
  refine ⟨partss, ?_, by simpa using h2, h3,
    fun part hp p hpp hlen => h4 part hp p hpp (by omega), ?_⟩
  · show ((chunkGo chunkSize (parags text) "" []).enum.map
        (fun p => ({ id := p.1, text := p.2 } : PChunk))).map (fun c => c.text)
      = partss.map joinPars
    rw [List.map_map]
    have : ((fun c : PChunk => c.text) ∘
        (fun p : Nat × String => ({ id := p.1, text := p.2 } : PChunk)))
        = Prod.snd := rfl
    rw [this, List.enum_map_snd]
    simpa [joinPars] using h1
  · show ((chunkGo chunkSize (parags text) "" []).enum.map
        (fun p => ({ id := p.1, text := p.2 } : PChunk))).map (fun c => c.id)
      = _
    rw [List.map_map]
    have : ((fun c : PChunk => c.id) ∘
        (fun p : Nat × String => ({ id := p.1, text := p.2 } : PChunk)))
        = Prod.fst := rfl
    rw [this, List.enum_map_fst]
    simp [chunkPolicy]

theorem retrieveRelevantOn_eq (h : String → Nat) (chunks : List LoadedChunk)
    (q : String) (k : Nat) :
    retrieveRelevantOn h chunks q k
      = (((chunks.map
            (fun c => (cosSim (qEmbed h q) c.embedding, c))).insertionSort
          scoredRel).take k).map (fun p => p.2) := rfl

theorem orderedInsert_ties (x : ℝ × LoadedChunk)
    (l : List (ℝ × LoadedChunk))
    (hl : l.Pairwise (fun a b => a.1 = b.1 → a.2.id < b.2.id))
    (hx : ∀ y ∈ l, x.2.id < y.2.id) :
    (l.orderedInsert scoredRel x).Pairwise
      (fun a b => a.1 = b.1 → a.2.id < b.2.id) := by
  induction l with
  | nil => simp
  | cons b l ih =>
    show (if scoredRel x b then x :: b :: l
        else b :: List.orderedInsert scoredRel x l).Pairwise _
    by_cases hrb : scoredRel x b
    · rw [if_pos hrb]
      refine List.Pairwise.cons ?_ hl
      intro y hy _
      exact hx y hy
    · rw [if_neg hrb]
      refine List.Pairwise.cons ?_
        (ih hl.of_cons (fun y hy => hx y (List.mem_cons_of_mem _ hy)))
      intro y hy heq
      rcases (List.mem_orderedInsert scoredRel).mp hy with hxy | hy
      · exact absurd (show scoredRel x b from (hxy ▸ heq).le) hrb
      · exact List.rel_of_pairwise_cons hl hy heq

theorem insertionSort_ties (l : List (ℝ × LoadedChunk))
    (hl : l.Pairwise (fun a b => a.2.id < b.2.id)) :
    (l.insertionSort scoredRel).Pairwise
      (fun a b => a.1 = b.1 → a.2.id < b.2.id) := by
  induction l with
  | nil => simp
  | cons x l ih =>
    show (List.orderedInsert scoredRel x (l.insertionSort scoredRel)).Pairwise _
    refine orderedInsert_ties x _ (ih hl.of_cons) ?_
    intro y hy
    exact List.rel_of_pairwise_cons hl ((List.mem_insertionSort scoredRel).mp hy)

/-- C3: `retrieve_relevant` returns at most `k` chunks, ordered with
non-increasing cosine-similarity scores to the query; equal-score ties keep
ascending chunk-id order (the stable sort preserves insertion order); when
the index has at most `k` chunks the result is the whole index (as a
permutation), and an empty index yields an empty result. -/
theorem retrieve_relevant_spec (h : String → Nat) (chunks : List LoadedChunk)
    (q : String) (k : Nat)
    (hids : chunks.Pairwise (fun a b => a.id < b.id)) :
    (retrieveRelevantOn h chunks q k).length ≤ k ∧
    (retrieveRelevantOn h chunks q k).Pairwise
      (fun a b => scoreOf h q b ≤ scoreOf h q a) ∧
    (retrieveRelevantOn h chunks q k).Pairwise
      (fun a b => scoreOf h q a = scoreOf h q b → a.id < b.id) ∧
    (chunks.length ≤ k → (retrieveRelevantOn h chunks q k).Perm chunks) ∧
    (chunks = [] → retrieveRelevantOn h chunks q k = []) := by
  have hmem : ∀ p ∈ chunks.map
      (fun c => (cosSim (qEmbed h q) c.embedding, c)),
      p.1 = scoreOf h q p.2 := by
    intro p hp
    rcases List.mem_map.mp hp with ⟨c, _, rfl⟩
    rfl
  have hmemtake : ∀ p ∈ (((chunks.map
      (fun c => (cosSim (qEmbed h q) c.embedding, c))).insertionSort
        scoredRel).take k),
      p.1 = scoreOf h q p.2 := by
    intro p hp
    exact hmem p ((List.mem_insertionSort scoredRel).mp (List.mem_of_mem_take hp))
  refine ⟨?_, ?_, ?_, ?_, ?_⟩
  · rw [retrieveRelevantOn_eq, List.length_map]
    exact (List.length_take_le _ _)
  · rw [retrieveRelevantOn_eq, List.pairwise_map]
    have hsorted : (((chunks.map
        (fun c => (cosSim (qEmbed h q) c.embedding, c))).insertionSort
          scoredRel).take k).Pairwise scoredRel :=
      List.Pairwise.sublist (List.take_sublist _ _)
        (List.sorted_insertionSort scoredRel _)
    refine hsorted.imp_of_mem ?_
    intro a b ha hb hab
    rw [← hmemtake a ha, ← hmemtake b hb]
    exact hab
  · rw [retrieveRelevantOn_eq, List.pairwise_map]
    have hpair : (chunks.map
        (fun c => (cosSim (qEmbed h q) c.embedding, c))).Pairwise
        (fun a b => a.2.id < b.2.id) := by
      rw [List.pairwise_map]
      exact hids
    have hties := insertionSort_ties _ hpair
    have htake : (((chunks.map
        (fun c => (cosSim (qEmbed h q) c.embedding, c))).insertionSort
          scoredRel).take k).Pairwise
        (fun a b => a.1 = b.1 → a.2.id < b.2.id) :=
      List.Pairwise.sublist (List.take_sublist _ _) hties
    refine htake.imp_of_mem ?_
    intro a b ha hb hab heq
    refine hab ?_
    rw [hmemtake a ha, hmemtake b hb]
    exact heq
  · intro hk
    rw [retrieveRelevantOn_eq]
    have hlen : ((chunks.map
        (fun c => (cosSim (qEmbed h q) c.embedding, c))).insertionSort
          scoredRel).length ≤ k := by
      rw [List.length_insertionSort, List.length_map]
      exact hk
    rw [List.take_of_length_le hlen]
    have hperm := (List.perm_insertionSort scoredRel
      (chunks.map (fun c => (cosSim (qEmbed h q) c.embedding, c)))).map
      (fun p : ℝ × LoadedChunk => p.2)
    refine hperm.trans ?_
    rw [List.map_map]
    have hcomp : ((fun p : ℝ × LoadedChunk => p.2) ∘
        (fun c => (cosSim (qEmbed h q) c.embedding, c))) = id := rfl
    rw [hcomp, List.map_id]
  · intro hc
    subst hc
    rw [retrieveRelevantOn_eq]
    simp

theorem retrieve_relevant_spec_witness :
    (retrieveRelevantOn (fun _ => 0) [] "" 0).length ≤ 0 :=
  (retrieve_relevant_spec (fun _ => 0) [] "" 0 List.Pairwise.nil).1

theorem braceBal_nil : braceBal [] = 0 := rfl

theorem braceBal_cons_open (l : List Char) :
    braceBal ('{' :: l) = braceBal l + 1 := by
  simp [braceBal, List.count_cons]
  omega

theorem braceBal_cons_close (l : List Char) :
    braceBal ('}' :: l) = braceBal l - 1 := by
  simp [braceBal, List.count_cons]
  omega

theorem braceBal_cons_other (c : Char) (l : List Char) (h1 : c ≠ '{')
    (h2 : c ≠ '}') : braceBal (c :: l) = braceBal l := by
  simp [braceBal, List.count_cons, h1, h2]

theorem firstBraceIdx_none (cs : List Char) (h : ∀ c ∈ cs, c ≠ '{') :
    ∀ i, firstBraceIdx cs i = none := by
  induction cs with
  | nil => intro i; rfl
  | cons c rest ih =>
    intro i
    have hc : c ≠ '{' := h c (List.mem_cons_self _ _)
    show (if c = '{' then some i else firstBraceIdx rest (i + 1)) = none
    rw [if_neg hc]
    exact ih (fun d hd => h d (List.mem_cons_of_mem _ hd)) (i + 1)

theorem firstBraceIdx_some (cs : List Char) (s : Nat)
    (h : IsFirstBrace cs s) : ∀ i, firstBraceIdx cs i = some (i + s) := by
  induction cs generalizing s with
  | nil => exact absurd h.1 (by simp)
  | cons c rest ih =>
    intro i
    obtain ⟨hlen, hch, hmin⟩ := h
    show (if c = '{' then some i else firstBraceIdx rest (i + 1)) = some (i + s)
    by_cases hc : c = '{'
    · rw [if_pos hc]
      cases s with
      | zero => rfl
      | succ s' =>
        have := hmin 0 (Nat.succ_pos s')
        rw [List.getD_cons_zero] at this
        exact absurd hc this
    · rw [if_neg hc]
      cases s with
      | zero =>
        rw [List.getD_cons_zero] at hch
        exact absurd hch hc
      | succ s' =>
        have hrest : IsFirstBrace rest s' := by
          refine ⟨by simpa using hlen, by simpa using hch, ?_⟩
          intro m hm
          have := hmin (m + 1) (Nat.succ_lt_succ hm)
          simpa using this
        rw [ih s' hrest (i + 1)]
        congr 1
        omega

theorem findEnd_none (cs : List Char) (d : Int)
    (h : ∀ n, ¬(n < cs.length ∧ cs.getD n ' ' = '}' ∧
      d + braceBal (cs.take (n + 1)) = 0)) :
    ∀ i, findEnd cs d i = none := by
  induction cs generalizing d with
  | nil => intro i; rfl
  | cons c rest ih =>
    intro i
    show (if c = '{' then findEnd rest (d + 1) (i + 1)
      else if c = '}' then
        (if d - 1 = 0 then some i else findEnd rest (d - 1) (i + 1))
      else findEnd rest d (i + 1)) = none
    by_cases hc : c = '{'
    · subst hc
      rw [if_pos rfl]
      refine ih (d + 1) ?_ (i + 1)
      intro n hn
      refine h (n + 1) ?_
      refine ⟨by simpa using hn.1, by simpa using hn.2.1, ?_⟩
      rw [List.take_succ_cons, braceBal_cons_open]
      omega
    · by_cases hc2 : c = '}'
      · subst hc2
        rw [if_neg hc, if_pos rfl]
        have hd : ¬(d - 1 = 0) := by
          intro hd0
          refine h 0 ⟨by simp, by simp, ?_⟩
          rw [List.take_succ_cons, List.take_zero, braceBal_cons_close,
            braceBal_nil]
          omega
        rw [if_neg hd]
        refine ih (d - 1) ?_ (i + 1)
        intro n hn
        refine h (n + 1) ?_
        refine ⟨by simpa using hn.1, by simpa using hn.2.1, ?_⟩
        rw [List.take_succ_cons, braceBal_cons_close]
        omega
      · rw [if_neg hc, if_neg hc2]
        refine ih d ?_ (i + 1)
        intro n hn
        refine h (n + 1) ?_
        refine ⟨by simpa using hn.1, by simpa using hn.2.1, ?_⟩
        rw [List.take_succ_cons, braceBal_cons_other c _ hc hc2]
        exact hn.2.2

theorem findEnd_some (cs : List Char) (d : Int) (n : Nat)
    (hn : n < cs.length) (hch : cs.getD n ' ' = '}')
    (hbal : d + braceBal (cs.take (n + 1)) = 0)
    (hmin : ∀ m < n, ¬(cs.getD m ' ' = '}' ∧
      d + braceBal (cs.take (m + 1)) = 0)) :
    ∀ i, findEnd cs d i = some (i + n) := by
  induction cs generalizing d n with
  | nil => exact absurd hn (by simp)
  | cons c rest ih =>
    intro i
    show (if c = '{' then findEnd rest (d + 1) (i + 1)
      else if c = '}' then
        (if d - 1 = 0 then some i else findEnd rest (d - 1) (i + 1))
      else findEnd rest d (i + 1)) = some (i + n)
    cases n with
    | zero =>
      rw [List.getD_cons_zero] at hch
      subst hch
      rw [List.take_succ_cons, List.take_zero, braceBal_cons_close,
        braceBal_nil] at hbal
      rw [if_neg (by decide), if_pos rfl, if_pos (by omega)]
      simp
    | succ m =>
      by_cases hc : c = '{'
      · subst hc
        rw [if_pos rfl]
        rw [List.take_succ_cons, braceBal_cons_open] at hbal
        have := ih (d + 1) m (by simpa using hn) (by simpa using hch)
          (by omega)
          (by
            intro j hj
            have hmj := hmin (j + 1) (Nat.succ_lt_succ hj)
            intro hcon
            refine hmj ⟨by simpa using hcon.1, ?_⟩
            rw [List.take_succ_cons, braceBal_cons_open]
            omega)
          (i + 1)
        rw [this]
        congr 1
        omega
      · by_cases hc2 : c = '}'
        · subst hc2
          rw [if_neg hc, if_pos rfl]
          have hd : ¬(d - 1 = 0) := by
            intro hd0
            refine hmin 0 (Nat.succ_pos m) ⟨by simp, ?_⟩
            rw [List.take_succ_cons, List.take_zero, braceBal_cons_close,
              braceBal_nil]
            omega
          rw [if_neg hd]
          rw [List.take_succ_cons, braceBal_cons_close] at hbal
          have := ih (d - 1) m (by simpa using hn) (by simpa using hch)
            (by omega)
            (by
              intro j hj
              have hmj := hmin (j + 1) (Nat.succ_lt_succ hj)
              intro hcon
              refine hmj ⟨by simpa using hcon.1, ?_⟩
              rw [List.take_succ_cons, braceBal_cons_close]
              omega)
            (i + 1)
          rw [this]
          congr 1
          omega
        · rw [if_neg hc, if_neg hc2]
          rw [List.take_succ_cons, braceBal_cons_other c _ hc hc2] at hbal
          have := ih d m (by simpa using hn) (by simpa using hch) hbal
            (by
              intro j hj
              have hmj := hmin (j + 1) (Nat.succ_lt_succ hj)
              intro hcon
              refine hmj ⟨by simpa using hcon.1, ?_⟩
              rw [List.take_succ_cons, braceBal_cons_other c _ hc hc2]
              exact hcon.2)
            (i + 1)
          rw [this]
          congr 1
          omega

theorem cleanJson_eq (txt : String) :
    cleanJson txt =
      match jsonLoads (String.mk (trimChars txt.data)) with
      | some v => .ok v
      | none =>
        match firstBraceIdx (trimChars txt.data) 0 with
        | none => .error .noBrace
        | some start =>
          match findEnd ((trimChars txt.data).drop start) 0 start with
          | none => .error .unbalanced
          | some e =>
            match jsonLoads (String.mk
                (((trimChars txt.data).drop start).take (e + 1 - start))) with
            | some v => .ok v
            | none => .error .sliceFail := rfl

/-- C4: `clean_json` returns the direct parse of the stripped input when it
is valid JSON; otherwise it locates the first opening brace and scans with a
depth counter (+1 per opening, −1 per closing brace) to the first closing
brace at which the depth returns to 0, returning the parse of exactly that
balanced slice; `clean_json` of the nested-brace example yields the inner
object; when no opening brace exists, the depth never returns to 0, or the
slice fails to parse, it raises the corresponding `ValueError`. -/
theorem clean_json_spec :
    (∀ txt v, jsonLoads (String.mk (trimChars txt.data)) = some v →
      cleanJson txt = .ok v) ∧
    (∀ txt, jsonLoads (String.mk (trimChars txt.data)) = none →
      (∀ c ∈ trimChars txt.data, c ≠ '{') →
      cleanJson txt = .error .noBrace) ∧
    (∀ txt s n, jsonLoads (String.mk (trimChars txt.data)) = none →
      IsFirstBrace (trimChars txt.data) s →
      IsScanEnd ((trimChars txt.data).drop s) n →
      cleanJson txt = (match jsonLoads (String.mk
          (((trimChars txt.data).drop s).take (n + 1))) with
        | some v => .ok v
        | none => .error .sliceFail)) ∧
    (∀ txt s, jsonLoads (String.mk (trimChars txt.data)) = none →
      IsFirstBrace (trimChars txt.data) s →
      (∀ n, ¬IsScanEnd ((trimChars txt.data).drop s) n) →
      cleanJson txt = .error .unbalanced) ∧
    cleanJson "\x7b\"a\": \x7b\"b\":1\x7d\x7d extra"
      = .ok (.jobj [("a", .jobj [("b", .jnum 1)])]) := by
  refine ⟨?_, ?_, ?_, ?_, by rfl⟩
  · intro txt v h
    rw [cleanJson_eq, h]
  · intro txt hnone hnob
    rw [cleanJson_eq, hnone, firstBraceIdx_none _ hnob 0]
  · intro txt s n hnone hfb hscan
    obtain ⟨hn, hch, hbal, hmin⟩ := hscan
    have hfbi : firstBraceIdx (trimChars txt.data) 0 = some s := by
      have := firstBraceIdx_some _ s hfb 0
      simpa using this
    have hfe : findEnd ((trimChars txt.data).drop s) 0 s = some (s + n) := by
      refine findEnd_some _ 0 n hn hch (by simpa using hbal) ?_ s
      intro m hm hcon
      exact hmin m hm ⟨hcon.1, by simpa using hcon.2⟩
    rw [cleanJson_eq, hnone, hfbi]
    dsimp only
    rw [hfe]
    dsimp only
    rw [show s + n + 1 - s = n + 1 from by omega]
  · intro txt s hnone hfb hall
    have hfbi : firstBraceIdx (trimChars txt.data) 0 = some s := by
      have := firstBraceIdx_some _ s hfb 0
      simpa using this
    have hfe : findEnd ((trimChars txt.data).drop s) 0 s = none := by
      refine findEnd_none _ 0 ?_ s
      intro n hcon
      have hP : ∃ m, m < ((trimChars txt.data).drop s).length ∧
          ((trimChars txt.data).drop s).getD m ' ' = '}' ∧
          braceBal (((trimChars txt.data).drop s).take (m + 1)) = 0 :=
        ⟨n, hcon.1, hcon.2.1, by simpa using hcon.2.2⟩
      obtain ⟨hm1, hm2, hm3⟩ := Nat.find_spec hP
      refine hall (Nat.find hP) ⟨hm1, hm2, hm3, ?_⟩
      intro m hm hcc
      exact Nat.find_min hP hm ⟨lt_trans hm hm1, hcc.1, hcc.2⟩
    rw [cleanJson_eq, hnone, hfbi]
    dsimp only
    rw [hfe]

theorem clean_json_spec_witness :
    jsonLoads (String.mk (trimChars "1".data)) = some (.jnum 1) ∧
    cleanJson "1" = .ok (.jnum 1) :=
  ⟨rfl, clean_json_spec.1 "1" (.jnum 1) rfl⟩

end Compliance
